import Mathlib

/-!
# Parallel histogram benchmark (`src/histogram.cpp`)

A shallow embedding of the histogram strategies of `src/histogram.cpp`, of the
work partitioner they share, and of the runner loop of `main`.

Modelling conventions.

* `size_t` and `u64` are 64-bit: a value is a `Nat`, every arithmetic operation
  of the source is followed by `% WORD`.
* A `std::vector` is a `List`; an access outside the vector is undefined
  behaviour in C++ and is the `none` result of the embedding.
* `int range` and `int threads` are received as naturals (the runner passes
  positive values); the dataset is a `List Int` of C++ `int`s.
* The workers of one parallel phase are joined before the result is read and
  every increment is indivisible (private histogram, mutex, `std::atomic`), so
  a phase is embedded as the schedule that runs the workers one after another
  in spawn order.  `interleaving_irrelevant` shows that the order of the
  increments is irrelevant.
* An OpenMP parallel region runs with the team size that
  `omp_set_num_threads` asks for, and a `schedule(static)` loop without chunk
  size hands thread `tid` the share `static_share` describes.
* Elapsed time (a `double` read from a clock) is not part of the embedding.
-/

namespace Histogram

/-! ## Machine arithmetic -/

/-- Modulus of `size_t` and of `u64`. -/
def WORD : Nat := 2 ^ 64

/-- The conversion `(size_t)x` of an `int`. -/
def toSizeT (x : Int) : Nat := (x % (WORD : Int)).toNat

/-! ## Work partitioner (lines 144-146, 172-174, 199-201) -/

/-- Statement `size_t chunk = (N + threads - 1) / threads;`.  The addition and the
subtraction wrap; the division is only evaluated inside a worker, hence with
`threads ≥ 1`. -/
def chunk (N threads : Nat) : Nat := ((N + threads + (WORD - 1)) % WORD) / threads

/-- Statement `size_t start = tid * chunk;`. -/
def start (N threads tid : Nat) : Nat := (tid * chunk N threads) % WORD

/-- Statement `size_t end = std::min(N, start + chunk);`. -/
def stop (N threads tid : Nat) : Nat :=
  min N ((start N threads tid + chunk N threads) % WORD)

/-! ## Loops and elementary steps -/

/-- Loop `for (i = lo; i < hi; i++) body(i)` on state `s`. -/
def forRange {σ : Type} (lo hi : Nat) (body : σ → Nat → Option σ) (s : σ) : Option σ :=
  (List.range' lo (hi - lo)).foldlM body s

/-- Increment `++h[idx]` on a vector of `u64` counters. -/
def incr (h : List Nat) (idx : Nat) : Option (List Nat) :=
  match h[idx]? with
  | some c => some (h.set idx ((c + 1) % WORD))
  | none => none

/-- Loop body `++h[(size_t)data[i]]` of a worker (the mutex body
`int v = data[i]; ++out_hist[v];` converts `v` the same way). -/
def count_at (data : List Int) (h : List Nat) (i : Nat) : Option (List Nat) :=
  match data[i]? with
  | some x => incr h (toSizeT x)
  | none => none

/-- Body of a worker lambda on the counters `h` it increments: the loop over
`[start, end)`. -/
def worker (data : List Int) (threads : Nat) (h : List Nat) (tid : Nat) : Option (List Nat) :=
  forRange (start data.length threads tid) (stop data.length threads tid) (count_at data) h

/-- Loop `for(int t=0;t<threads;t++) thr.emplace_back(worker, t);` followed by the
joins. -/
def spawn_join {σ : Type} (threads : Nat) (w : σ → Nat → Option σ) (s : σ) : Option σ :=
  (List.range threads).foldlM w s

/-! ## Histogram strategies -/

/-- Worker of `compute_hist_private_threads`: `auto &lh = local[tid];` and the
counting loop on `lh`. -/
def private_worker (data : List Int) (threads : Nat) (locals : List (List Nat)) (tid : Nat) :
    Option (List (List Nat)) :=
  (locals[tid]?).bind fun lh => (worker data threads lh tid).map fun lh1 => locals.set tid lh1

/-- Statement `out_hist[v] += local[t][v];`. -/
def reduce_step (row : List Nat) (out : List Nat) (v : Nat) : Option (List Nat) :=
  match out[v]?, row[v]? with
  | some a, some b => some (out.set v ((a + b) % WORD))
  | _, _ => none

/-- The reduction loops of lines 155-157. -/
def reduce (locals : List (List Nat)) (range threads : Nat) (out_hist : List Nat) :
    Option (List Nat) :=
  forRange 0 threads
    (fun out t =>
      match locals[t]? with
      | some row => forRange 0 range (reduce_step row) out
      | none => none)
    out_hist

/-- The function `compute_hist_private_threads` (lines 136-160); the result is
the final content of `out_hist`. -/
def compute_hist_private_threads (data : List Int) (range : Nat) (out_hist : List Nat)
    (threads : Nat) : Option (List Nat) :=
  match spawn_join threads (private_worker data threads)
      (List.replicate threads (List.replicate range 0)) with
  | some locals => reduce locals range threads out_hist
  | none => none

/-- The function `compute_hist_mutex` (lines 166-185): every worker increments
`out_hist` itself. -/
def compute_hist_mutex (data : List Int) (_range : Nat) (out_hist : List Nat)
    (threads : Nat) : Option (List Nat) :=
  spawn_join threads (worker data threads) out_hist

/-- Statement `ah[i].store(0)`. -/
def store_zero (ah : List Nat) (i : Nat) : Option (List Nat) :=
  if i < ah.length then some (ah.set i 0) else none

/-- Statement `out_hist[v] = ah[v].load();`. -/
def copy_back (ah : List Nat) (out : List Nat) (v : Nat) : Option (List Nat) :=
  match ah[v]? with
  | some a => if v < out.length then some (out.set v a) else none
  | none => none

/-- The function `compute_hist_atomic` (lines 191-212).  The `range` atomics
are created with an unspecified content, `ah_init`, and zeroed by the loop of
line 195. -/
def compute_hist_atomic_from (ah_init : List Nat) (data : List Int) (range : Nat)
    (out_hist : List Nat) (threads : Nat) : Option (List Nat) :=
  match forRange 0 range store_zero ah_init with
  | some ah0 =>
    match spawn_join threads (worker data threads) ah0 with
    | some ah => forRange 0 range (copy_back ah) out_hist
    | none => none
  | none => none

/-- The function `compute_hist_atomic` with the fresh vector of `range` atomics. -/
def compute_hist_atomic (data : List Int) (range : Nat) (out_hist : List Nat)
    (threads : Nat) : Option (List Nat) :=
  compute_hist_atomic_from (List.replicate range 0) data range out_hist threads

/-! ## OpenMP backend (lines 220-263) -/

/-- Statement `size_t start = (size_t)tid * (N + T - 1) / T;`: the product is
formed first, then divided. -/
def omp_start (N T tid : Nat) : Nat := ((tid * ((N + T + (WORD - 1)) % WORD)) % WORD) / T

/-- Statement `size_t end = std::min(N, start + (N + T - 1) / T);`. -/
def omp_stop (N T tid : Nat) : Nat :=
  min N ((omp_start N T tid + ((N + T + (WORD - 1)) % WORD) / T) % WORD)

/-- Increment `++mybase[data[i]]` with `mybase = &flat[(size_t)tid * range]`: the `int`
value is an offset from the base of the slice. -/
def omp_count_at (data : List Int) (range tid : Nat) (flat : List Nat) (i : Nat) :
    Option (List Nat) :=
  match data[i]? with
  | some x =>
    if 0 ≤ ((tid * range : Nat) : Int) + x then incr flat (((tid * range : Nat) : Int) + x).toNat
    else none
  | none => none

/-- Statement `out_hist[v] += base[v]` with `base = &flat[(size_t)t*range]`. -/
def omp_reduce_step (flat : List Nat) (range t : Nat) (out : List Nat) (v : Nat) :
    Option (List Nat) :=
  match out[v]?, flat[t * range + v]? with
  | some a, some b => some (out.set v ((a + b) % WORD))
  | _, _ => none

/-- Share of thread `tid`, in a team of `T` threads, of a loop of `n`
iterations under `schedule(static)` without a chunk size, as the GNU and the
LLVM runtimes hand it out: the offset of its first iteration and the number of
its iterations.  The first `n % T` threads run `n / T + 1` iterations, the
others `n / T`. -/
def static_share (n T tid : Nat) : Nat × Nat :=
  if tid < n % T then ((n / T + 1) * tid, n / T + 1) else (n / T * tid + n % T, n / T)

/-- Body of the parallel region of lines 227-237 for the thread `tid` of a team
of `threads` threads: the thread computes its interval `[start, end)` and then
meets `#pragma omp for schedule(static) nowait`, which hands it only its static
share of the loop over that interval. -/
def omp_private_worker (data : List Int) (range threads : Nat) (flat : List Nat) (tid : Nat) :
    Option (List Nat) :=
  forRange
    (omp_start data.length threads tid
      + (static_share (omp_stop data.length threads tid - omp_start data.length threads tid)
          threads tid).1)
    (omp_start data.length threads tid
      + (static_share (omp_stop data.length threads tid - omp_start data.length threads tid)
          threads tid).1
      + (static_share (omp_stop data.length threads tid - omp_start data.length threads tid)
          threads tid).2)
    (omp_count_at data range tid) flat

/-- The function `compute_hist_private_openmp` (lines 220-245) with the team of
`threads` threads that `omp_set_num_threads(threads)` asks for, followed by the
reduction of lines 239-242. -/
def compute_hist_private_openmp (data : List Int) (range : Nat) (out_hist : List Nat)
    (threads : Nat) : Option (List Nat) :=
  match spawn_join threads (omp_private_worker data range threads)
      (List.replicate (threads * range) 0) with
  | some flat =>
    forRange 0 threads (fun out t => forRange 0 range (omp_reduce_step flat range t) out) out_hist
  | none => none

/-- The function `compute_hist_atomic_openmp` (lines 251-263): one
`parallel for schedule(static)` over all indices, each iteration one atomic
`out_hist[v]++`.  The static shares of the threads, taken in thread order, are
the indices `0, ..., N-1` in order. -/
def compute_hist_atomic_openmp (data : List Int) (_range : Nat) (out_hist : List Nat)
    (_threads : Nat) : Option (List Nat) :=
  forRange 0 data.length (count_at data) out_hist

/-! ## Runner (lines 268-328) -/

/-- The configuration after `parse_args`. -/
structure Config where
  N : Nat
  range : Nat
  seed : Nat
  threads : Nat
  backend : String
  method : String
  reps : Int
  quiet : Bool

/-- One line of standard output (without the elapsed time). -/
structure Record where
  method : String
  backend : String
  threads : Nat
  rep : Nat
  total_count : Nat
  ok : Bool
  deriving DecidableEq

/-- Result of the strategy dispatch of one repetition. -/
inductive Dispatch where
  | done (hist : Option (List Nat))
  | fatal

/-- Lines 300-318: the dispatch on backend and method; `openmp` tells whether
the binary was compiled with `_OPENMP`. -/
def dispatch (openmp : Bool) (cfg : Config) (data : List Int) (hist : List Nat) : Dispatch :=
  if cfg.backend = "openmp" then
    if openmp then
      if cfg.method = "private" then
        .done (compute_hist_private_openmp data cfg.range hist cfg.threads)
      else if cfg.method = "atomic" then
        .done (compute_hist_atomic_openmp data cfg.range hist cfg.threads)
      else if cfg.method = "mutex" then
        .done (compute_hist_mutex data cfg.range hist cfg.threads)
      else .fatal
    else .fatal
  else
    if cfg.method = "private" then
      .done (compute_hist_private_threads data cfg.range hist cfg.threads)
    else if cfg.method = "atomic" then
      .done (compute_hist_atomic data cfg.range hist cfg.threads)
    else if cfg.method = "mutex" then
      .done (compute_hist_mutex data cfg.range hist cfg.threads)
    else .fatal

/-- Verifier `u64 sum = 0; for(auto &v: hist) sum += v;`. -/
def verify_sum (hist : List Nat) : Nat := hist.foldl (fun s v => (s + v) % WORD) 0

/-- The repetition loop of lines 297-325 on the repetition indices still to
run; the result is the exit status and the records written so far, `none` after
an out-of-bounds access. -/
def trials (openmp : Bool) (cfg : Config) (data : List Int) :
    List Nat → List Record → Option (Nat × List Record)
  | [], out => some (0, out)
  | rep :: rest, out =>
    match dispatch openmp cfg data (List.replicate cfg.range 0) with
    | .fatal => some (1, out)
    | .done none => none
    | .done (some hist) =>
      trials openmp cfg data rest
        (out ++ [{ method := cfg.method, backend := cfg.backend, threads := cfg.threads,
                   rep := rep, total_count := verify_sum hist,
                   ok := decide (verify_sum hist = cfg.N) }])

/-- The function `main` after `parse_args`, on the dataset `data` that the fill
phase produced (`data.size() = cfg.N`). -/
def main (openmp : Bool) (cfg : Config) (data : List Int) : Option (Nat × List Record) :=
  if cfg.backend = "openmp" ∧ openmp = false then some (1, [])
  else trials openmp cfg data (List.range cfg.reps.toNat) []

/-! ## Definitions used by the statements and the proofs -/

/-- The list `[F 0, ..., F (n-1)]`. -/
def tab {α : Type} (n : Nat) (F : Nat → α) : List α := (List.range n).map F

/-- Value after `k` increments of a `u64` counter holding `x`. -/
def bump (k x : Nat) : Nat := (fun y => (y + 1) % WORD)^[k] x

/-- Number of indices `i` in `[s, s + len)` with `data[i] = v`. -/
def cnt (data : List Int) (s len v : Nat) : Nat :=
  (List.range' s len).countP (fun i => decide (data[i]? = some (v : Int)))

/-- The precondition of the strategy contract: every value lies in
`[0, range)`. -/
def InRange (data : List Int) (range : Nat) : Prop := ∀ x ∈ data, 0 ≤ x ∧ x < (range : Int)

instance (data : List Int) (range : Nat) : Decidable (InRange data range) := by
  unfold InRange; exact inferInstance

/-- The histogram the specification asks for: bin `v` holds the number of
positions of the dataset whose value is `v`. -/
def histogram_of (data : List Int) (range : Nat) : List Nat :=
  (List.range range).map (fun (v : Nat) => data.count (v : Int))

/-- Number of indices handed to the workers `0, ..., k-1`. -/
def lim (N T k : Nat) : Nat := min N (k * chunk N T)

/-- Number of indices `i` of worker `t`'s partition `[start, end)` with
`data[i] = v`. -/
def part_cnt (data : List Int) (T t v : Nat) : Nat :=
  cnt data (start data.length T t) (stop data.length T t - start data.length T t) v

/-- Content of bin `v` after the rows `0, ..., j-1` were added onto `x`. -/
def acc (R : Nat → Nat → Nat) (j v x : Nat) : Nat :=
  (List.range j).foldl (fun a t => (a + R t v) % WORD) x

/-- The indices in the order in which the sequential schedule of the first `k`
workers counts them. -/
def sequential_order (N T : Nat) : Nat → List Nat
  | 0 => []
  | k + 1 => sequential_order N T k ++ List.range' (start N T k) (stop N T k - start N T k)

/-- Sum over the workers of their private counts of bin `v`. -/
def locals_sum (data : List Int) (threads v : Nat) : Nat :=
  ((List.range threads).map (fun t => part_cnt data threads t v)).sum

/-- What the runner guarantees of an emitted record, whatever the strategy
did: the total is the sum of the bins of the histogram computed from a zeroed
one, and the status is OK exactly when that total is `N`. -/
def Verified (openmp : Bool) (cfg : Config) (data : List Int) (r : Record) : Prop :=
  (r.ok = true ↔ r.total_count = cfg.N) ∧
  ∃ hist, dispatch openmp cfg data (List.replicate cfg.range 0) = Dispatch.done (some hist) ∧
    r.total_count = verify_sum hist

/-! ## Tables -/

theorem tab_length {α : Type} (n : Nat) (F : Nat → α) : (tab n F).length = n := by
  simp [tab]

theorem tab_getElem?_lt {α : Type} {n k : Nat} (F : Nat → α) (h : k < n) :
    (tab n F)[k]? = some (F k) := by
  simp [tab, List.getElem?_range h]

theorem tab_getElem?_ge {α : Type} {n k : Nat} (F : Nat → α) (h : n ≤ k) :
    (tab n F)[k]? = none := by
  apply List.getElem?_eq_none
  simpa [tab_length] using h

theorem tab_congr {α : Type} {n : Nat} {F G : Nat → α} (h : ∀ k, k < n → F k = G k) :
    tab n F = tab n G := by
  apply List.ext_getElem?
  intro k
  by_cases hk : k < n
  · rw [tab_getElem?_lt F hk, tab_getElem?_lt G hk, h k hk]
  · rw [tab_getElem?_ge F (Nat.le_of_not_lt hk), tab_getElem?_ge G (Nat.le_of_not_lt hk)]

theorem tab_set {α : Type} (n k : Nat) (F : Nat → α) (x : α) :
    (tab n F).set k x = tab n (Function.update F k x) := by
  apply List.ext_getElem?
  intro j
  rw [List.getElem?_set]
  by_cases hj : j < n
  · rw [tab_getElem?_lt _ hj, tab_getElem?_lt _ hj]
    by_cases hkj : k = j
    · subst hkj
      simp [tab_length, hj]
    · have hjk : j ≠ k := fun h => hkj h.symm
      simp [hkj, Function.update_noteq hjk]
  · have hj2 : n ≤ j := Nat.le_of_not_lt hj
    rw [tab_getElem?_ge _ hj2, tab_getElem?_ge _ hj2]
    by_cases hkj : k = j
    · subst hkj
      simp [tab_length, hj]
    · simp [hkj]

theorem replicate_eq_tab {α : Type} (n : Nat) (a : α) : List.replicate n a = tab n (fun _ => a) := by
  apply List.ext_getElem?
  intro k
  by_cases hk : k < n
  · rw [tab_getElem?_lt _ hk]; simp [hk]
  · rw [tab_getElem?_ge _ (Nat.le_of_not_lt hk)]
    apply List.getElem?_eq_none
    simpa using Nat.le_of_not_lt hk

theorem eq_tab (l : List Nat) : l = tab l.length (fun k => l.getD k 0) := by
  apply List.ext_getElem?
  intro k
  by_cases hk : k < l.length
  · rw [tab_getElem?_lt _ hk]
    simp [List.getD, List.getElem?_eq_getElem hk]
  · rw [tab_getElem?_ge _ (Nat.le_of_not_lt hk)]
    exact List.getElem?_eq_none (Nat.le_of_not_lt hk)

theorem tab_sum (n : Nat) (F : Nat → Nat) : (tab n F).sum = ∑ v ∈ Finset.range n, F v := by
  induction n with
  | zero => simp [tab]
  | succ n ih =>
    have h : tab (n + 1) F = tab n F ++ [F n] := by simp [tab, List.range_succ]
    rw [h, List.sum_append, ih, Finset.sum_range_succ]
    simp

/-! ## Increments -/

theorem incr_tab {n v : Nat} (F : Nat → Nat) (h : v < n) :
    incr (tab n F) v = some (tab n (Function.update F v ((F v + 1) % WORD))) := by
  simp [incr, tab_getElem?_lt F h, tab_set]

theorem incr_tab_ge {n v : Nat} (F : Nat → Nat) (h : n ≤ v) : incr (tab n F) v = none := by
  simp [incr, tab_getElem?_ge F h]

theorem bump_zero (x : Nat) : bump 0 x = x := rfl

theorem bump_add (a b x : Nat) : bump a (bump b x) = bump (a + b) x := by
  simp [bump, Function.iterate_add_apply]

theorem bump_one (x : Nat) : bump 1 x = (x + 1) % WORD := rfl

theorem bump_eq (k x : Nat) (hx : x < WORD) : bump k x = (x + k) % WORD := by
  induction k with
  | zero => simp [bump, Nat.mod_eq_of_lt hx]
  | succ k ih =>
    have h : bump (k + 1) x = bump 1 (bump k x) := by rw [bump_add, Nat.add_comm]
    rw [h, ih, bump_one, Nat.mod_add_mod, Nat.add_assoc]

theorem toSizeT_of_inRange {x : Int} {n : Nat} (h0 : 0 ≤ x) (h1 : x < (n : Int)) (hn : n ≤ WORD) :
    toSizeT x = x.toNat ∧ x.toNat < n := by
  have hW : (n : Int) ≤ (WORD : Int) := by exact_mod_cast hn
  have hlt : x < (WORD : Int) := lt_of_lt_of_le h1 hW
  constructor
  · unfold toSizeT
    rw [Int.emod_eq_of_lt h0 hlt]
  · omega

theorem cnt_zero (data : List Int) (s v : Nat) : cnt data s 0 v = 0 := by
  simp [cnt]

theorem cnt_succ (data : List Int) (s len v : Nat) :
    cnt data s (len + 1) v =
      cnt data (s + 1) len v + (if data[s]? = some (v : Int) then 1 else 0) := by
  simp [cnt, List.range'_succ, List.countP_cons]

theorem cnt_add (data : List Int) (s a b v : Nat) :
    cnt data s (a + b) v = cnt data s a v + cnt data (s + a) b v := by
  unfold cnt
  rw [← List.countP_append, List.range'_append_1, Nat.add_comm]

theorem cnt_le (data : List Int) (s len v : Nat) : cnt data s len v ≤ len := by
  unfold cnt
  have h : List.countP (fun i => decide (data[i]? = some (v : Int))) (List.range' s len)
      ≤ (List.range' s len).length := List.countP_le_length _
  simpa using h

/-- The counting loop of a worker over the indices `[s, s + len)`. -/
theorem count_loop (data : List Int) (n : Nat) (hdata : InRange data n) (hn : n ≤ WORD) :
    ∀ (len s : Nat) (F : Nat → Nat), s + len ≤ data.length →
      (List.range' s len).foldlM (count_at data) (tab n F)
        = some (tab n (fun v => bump (cnt data s len v) (F v))) := by
  intro len
  induction len with
  | zero =>
    intro s F _
    simp [cnt_zero, bump_zero]
  | succ len ih =>
    intro s F hs
    have hlt : s < data.length := by omega
    have hmem : data[s] ∈ data := List.getElem_mem hlt
    obtain ⟨h0, h1⟩ := hdata _ hmem
    obtain ⟨hconv, hidx⟩ := toSizeT_of_inRange h0 h1 hn
    rw [List.range'_succ, List.foldlM_cons]
    have hstep : count_at data (tab n F) s
        = some (tab n (Function.update F data[s].toNat ((F data[s].toNat + 1) % WORD))) := by
      simp only [count_at, List.getElem?_eq_getElem hlt, hconv]
      exact incr_tab F hidx
    rw [hstep]
    simp only [Option.bind_eq_bind, Option.some_bind]
    rw [ih (s + 1) _ (by omega)]
    congr 1
    apply tab_congr
    intro v _
    rw [cnt_succ, List.getElem?_eq_getElem hlt]
    by_cases hv : data[s].toNat = v
    · have hx : data[s] = (v : Int) := by omega
      rw [hv, Function.update_same, ← bump_one, bump_add]
      simp [hx]
    · have hx : ¬ data[s] = (v : Int) := by omega
      have hv2 : v ≠ data[s].toNat := fun h => hv h.symm
      rw [Function.update_noteq hv2]
      simp [hx]

/-! ## Partition arithmetic -/

theorem WORD_eq : WORD = 18446744073709551616 := by norm_num [WORD]

theorem chunk_eq {N T : Nat} (hT : 1 ≤ T) (hfit : N + T ≤ WORD) :
    chunk N T = (N + T - 1) / T := by
  unfold chunk
  have h : (N + T + (WORD - 1)) % WORD = N + T - 1 := by
    rw [WORD_eq] at hfit ⊢
    omega
  rw [h]

theorem chunk_mul_le {N T : Nat} (hT : 1 ≤ T) (hfit : N + T ≤ WORD) :
    T * chunk N T ≤ N + T - 1 := by
  rw [chunk_eq hT hfit]
  exact Nat.mul_div_le _ _

theorem le_chunk_mul {N T : Nat} (hT : 1 ≤ T) (hfit : N + T ≤ WORD) :
    N ≤ T * chunk N T := by
  rw [chunk_eq hT hfit]
  have h := Nat.lt_mul_div_succ (N + T - 1) (show 0 < T by omega)
  rw [Nat.mul_add] at h
  omega

theorem succ_mul_chunk_le (N : Nat) {T t : Nat} (ht : t < T) :
    t * chunk N T + chunk N T ≤ T * chunk N T := by
  have h : (t + 1) * chunk N T ≤ T * chunk N T := Nat.mul_le_mul_right _ ht
  rw [Nat.add_mul, Nat.one_mul] at h
  exact h

theorem start_eq {N T t : Nat} (hT : 1 ≤ T) (hfit : N + T ≤ WORD) (ht : t < T) :
    start N T t = t * chunk N T := by
  unfold start
  apply Nat.mod_eq_of_lt
  have h1 := chunk_mul_le hT hfit
  have h2 := succ_mul_chunk_le N ht
  omega

theorem stop_eq {N T t : Nat} (hT : 1 ≤ T) (hfit : N + T ≤ WORD) (ht : t < T) :
    stop N T t = min N (t * chunk N T + chunk N T) := by
  unfold stop
  rw [start_eq hT hfit ht]
  have h1 := chunk_mul_le hT hfit
  have h2 := succ_mul_chunk_le N ht
  rw [Nat.mod_eq_of_lt (by omega)]

theorem lim_zero (N T : Nat) : lim N T 0 = 0 := by simp [lim]

theorem lim_mono (N T k : Nat) : lim N T k ≤ lim N T (k + 1) := by
  unfold lim
  rw [Nat.add_mul, Nat.one_mul]
  omega

theorem lim_le (N T k : Nat) : lim N T k ≤ N := by
  unfold lim
  omega

theorem lim_all {N T : Nat} (hT : 1 ≤ T) (hfit : N + T ≤ WORD) : lim N T T = N := by
  unfold lim
  have h := le_chunk_mul hT hfit
  omega

/-- The index list of worker `t` is the list of the indices from `lim t` up to
`lim (t + 1)`. -/
theorem worker_indices {N T t : Nat} (hT : 1 ≤ T) (hfit : N + T ≤ WORD) (ht : t < T) :
    List.range' (start N T t) (stop N T t - start N T t)
      = List.range' (lim N T t) (lim N T (t + 1) - lim N T t) := by
  rw [stop_eq hT hfit ht, start_eq hT hfit ht]
  unfold lim
  rw [Nat.add_mul, Nat.one_mul]
  by_cases h : t * chunk N T < N
  · rw [Nat.min_eq_right (Nat.le_of_lt h)]
  · have e1 : min N (t * chunk N T + chunk N T) - t * chunk N T = 0 := by omega
    have e2 : min N (t * chunk N T + chunk N T) - min N (t * chunk N T) = 0 := by omega
    rw [e1, e2]
    simp

theorem worker_eq (data : List Int) {T t : Nat} (hT : 1 ≤ T) (hfit : data.length + T ≤ WORD)
    (ht : t < T) (h : List Nat) :
    worker data T h t
      = (List.range' (lim data.length T t) (lim data.length T (t + 1) - lim data.length T t)).foldlM
          (count_at data) h := by
  unfold worker forRange
  rw [worker_indices hT hfit ht]

theorem foldlM_range_succ {σ : Type} (f : σ → Nat → Option σ) (s : σ) (k : Nat) :
    (List.range (k + 1)).foldlM f s = ((List.range k).foldlM f s).bind (fun s1 => f s1 k) := by
  rw [List.range_succ, List.foldlM_append]
  cases (List.range k).foldlM f s with
  | none => rfl
  | some s1 =>
    show (List.foldlM f s1 [k]) = f s1 k
    rw [List.foldlM_cons]
    cases f s1 k <;> rfl

/-- The counters after the first `k` workers have run on them. -/
theorem workers_upto (data : List Int) (n T : Nat) (hdata : InRange data n) (hn : n ≤ WORD)
    (hT : 1 ≤ T) (hfit : data.length + T ≤ WORD) (F : Nat → Nat) :
    ∀ k, k ≤ T →
      (List.range k).foldlM (worker data T) (tab n F)
        = some (tab n (fun v => bump (cnt data 0 (lim data.length T k) v) (F v))) := by
  intro k
  induction k with
  | zero =>
    intro _
    rw [lim_zero]
    simp only [cnt_zero, bump_zero]
    rfl
  | succ k ih =>
    intro hk
    have hk1 : k ≤ T := by omega
    have hk2 : k < T := by omega
    rw [foldlM_range_succ, ih hk1, Option.some_bind]
    rw [worker_eq data hT hfit hk2]
    have hmono := lim_mono data.length T k
    have hle := lim_le data.length T (k + 1)
    have hb : lim data.length T k + (lim data.length T (k + 1) - lim data.length T k)
        ≤ data.length := by omega
    rw [count_loop data n hdata hn _ _ _ hb]
    congr 1
    apply tab_congr
    intro v _
    rw [bump_add]
    have e : lim data.length T (k + 1)
        = lim data.length T k + (lim data.length T (k + 1) - lim data.length T k) := by omega
    conv_rhs => rw [e, cnt_add]
    rw [Nat.zero_add, Nat.add_comm]

theorem cnt_all (data : List Int) (v : Nat) : cnt data 0 data.length v = data.count (v : Int) := by
  induction data using List.reverseRecOn with
  | nil => simp [cnt]
  | append_singleton l a ih =>
    rw [List.length_append, List.length_singleton, cnt_add, List.count_append]
    have h1 : cnt (l ++ [a]) 0 l.length v = cnt l 0 l.length v := by
      unfold cnt
      apply List.countP_congr
      intro i hi
      have hi2 : i < l.length := by
        have := (List.mem_range'_1.mp hi).2
        omega
      simp [List.getElem?_append_left hi2]
    rw [h1, ih]
    congr 1
    rw [cnt_succ, cnt_zero, Nat.zero_add, Nat.zero_add]
    have hl : (l ++ [a])[l.length]? = some a := by simp
    rw [hl, List.count_singleton]
    by_cases h : a = (v : Int)
    · simp [h]
    · have h2 : ¬ ((v : Int) = a) := fun e => h e.symm
      simp [h, h2]

/-- The workers, run on counters `F`, add to every bin its number of
occurrences. -/
theorem workers_all (data : List Int) (n T : Nat) (hdata : InRange data n) (hn : n ≤ WORD)
    (hT : 1 ≤ T) (hfit : data.length + T ≤ WORD) (F : Nat → Nat) :
    spawn_join T (worker data T) (tab n F)
      = some (tab n (fun v => bump (data.count (v : Int)) (F v))) := by
  unfold spawn_join
  rw [workers_upto data n T hdata hn hT hfit F T (Nat.le_refl T), lim_all hT hfit]
  congr 1
  apply tab_congr
  intro v _
  rw [cnt_all]

/-! ## Loops that update one position per iteration -/

theorem forRange_zero {σ : Type} (n : Nat) (body : σ → Nat → Option σ) (s : σ) :
    forRange 0 n body s = (List.range n).foldlM body s := by
  unfold forRange
  rw [Nat.sub_zero, ← List.range_eq_range']

/-- A loop over `v = 0, ..., n-1` whose step rewrites position `v` of a table
with `u v` of its old value. -/
theorem forRange_pointwise {α : Type} (n : Nat) (step : List α → Nat → Option (List α))
    (u : Nat → α → α)
    (hstep : ∀ (G : Nat → α) (v : Nat), v < n →
      step (tab n G) v = some (tab n (Function.update G v (u v (G v)))))
    (F : Nat → α) :
    forRange 0 n step (tab n F) = some (tab n (fun v => u v (F v))) := by
  have key : ∀ j, j ≤ n →
      (List.range j).foldlM step (tab n F)
        = some (tab n (fun v => if v < j then u v (F v) else F v)) := by
    intro j
    induction j with
    | zero =>
      intro _
      simp only [Nat.not_lt_zero, if_false]
      rfl
    | succ j ih =>
      intro hj
      have hj1 : j ≤ n := by omega
      have hj2 : j < n := by omega
      rw [foldlM_range_succ, ih hj1, Option.some_bind, hstep _ j hj2]
      congr 1
      apply tab_congr
      intro v _
      by_cases hv : v = j
      · subst hv
        simp
      · rw [Function.update_noteq hv]
        by_cases h1 : v < j
        · have h2 : v < j + 1 := by omega
          simp [h1, h2]
        · have h2 : ¬ v < j + 1 := by omega
          simp [h1, h2]
  unfold forRange
  rw [Nat.sub_zero, ← List.range_eq_range', key n (Nat.le_refl n)]
  congr 1
  apply tab_congr
  intro v hv
  simp [hv]

theorem store_zero_loop (n : Nat) (F : Nat → Nat) :
    forRange 0 n store_zero (tab n F) = some (tab n (fun _ => 0)) := by
  apply forRange_pointwise n store_zero (fun _ _ => 0)
  intro G v hv
  simp [store_zero, tab_length, hv, tab_set]

theorem copy_back_loop (n : Nat) (A F : Nat → Nat) :
    forRange 0 n (copy_back (tab n A)) (tab n F) = some (tab n A) := by
  apply forRange_pointwise n (copy_back (tab n A)) (fun v _ => A v)
  intro G v hv
  simp [copy_back, tab_getElem?_lt A hv, tab_length, hv, tab_set]

theorem reduce_row_loop (n : Nat) (R F : Nat → Nat) :
    forRange 0 n (reduce_step (tab n R)) (tab n F)
      = some (tab n (fun v => (F v + R v) % WORD)) := by
  apply forRange_pointwise n (reduce_step (tab n R)) (fun v x => (x + R v) % WORD)
  intro G v hv
  simp [reduce_step, tab_getElem?_lt R hv, tab_getElem?_lt G hv, tab_set]

/-! ## Closed forms of the strategies -/

/-- The mutex strategy adds the occurrence counts onto the counters it is
given. -/
theorem mutex_closed (data : List Int) (n T : Nat) (hdata : InRange data n) (hn : n ≤ WORD)
    (hT : 1 ≤ T) (hfit : data.length + T ≤ WORD) (F : Nat → Nat) :
    compute_hist_mutex data n (tab n F) T
      = some (tab n (fun v => bump (data.count (v : Int)) (F v))) :=
  workers_all data n T hdata hn hT hfit F

/-- The atomic strategy overwrites the output with the occurrence counts. -/
theorem atomic_closed (data : List Int) (n T : Nat) (hdata : InRange data n) (hn : n ≤ WORD)
    (hT : 1 ≤ T) (hfit : data.length + T ≤ WORD) (F : Nat → Nat) :
    compute_hist_atomic data n (tab n F) T
      = some (tab n (fun v => bump (data.count (v : Int)) 0)) := by
  unfold compute_hist_atomic compute_hist_atomic_from
  rw [replicate_eq_tab, store_zero_loop]
  simp only []
  rw [workers_all data n T hdata hn hT hfit]
  simp only []
  rw [copy_back_loop]

/-! ## The thread-local strategy -/

theorem part_cnt_eq (data : List Int) {T t : Nat} (hT : 1 ≤ T) (hfit : data.length + T ≤ WORD)
    (ht : t < T) (v : Nat) :
    part_cnt data T t v
      = cnt data (lim data.length T t) (lim data.length T (t + 1) - lim data.length T t) v := by
  unfold part_cnt cnt
  rw [worker_indices hT hfit ht]

theorem part_cnt_lt (data : List Int) (T t v : Nat) (hfit : data.length + T ≤ WORD)
    (hT : 1 ≤ T) : part_cnt data T t v < WORD := by
  have h1 := cnt_le data (start data.length T t)
    (stop data.length T t - start data.length T t) v
  have h2 : stop data.length T t ≤ data.length := by
    unfold stop
    exact Nat.min_le_left _ _
  unfold part_cnt
  omega

theorem sum_part_cnt (data : List Int) {T : Nat} (hT : 1 ≤ T) (hfit : data.length + T ≤ WORD)
    (v : Nat) :
    ∀ k, k ≤ T → ∑ t ∈ Finset.range k, part_cnt data T t v = cnt data 0 (lim data.length T k) v := by
  intro k
  induction k with
  | zero =>
    intro _
    simp [lim_zero, cnt_zero]
  | succ k ih =>
    intro hk
    have hk1 : k ≤ T := by omega
    have hk2 : k < T := by omega
    rw [Finset.sum_range_succ, ih hk1, part_cnt_eq data hT hfit hk2]
    have hmono := lim_mono data.length T k
    have e : lim data.length T (k + 1)
        = lim data.length T k + (lim data.length T (k + 1) - lim data.length T k) := by omega
    conv_rhs => rw [e, cnt_add]
    rw [Nat.zero_add]

theorem sum_part_cnt_all (data : List Int) {T : Nat} (hT : 1 ≤ T)
    (hfit : data.length + T ≤ WORD) (v : Nat) :
    ∑ t ∈ Finset.range T, part_cnt data T t v = data.count (v : Int) := by
  rw [sum_part_cnt data hT hfit v T (Nat.le_refl T), lim_all hT hfit, cnt_all]

/-- Worker `t` turns its zeroed private histogram into the counts of its
partition. -/
theorem private_row (data : List Int) (n T : Nat) (hdata : InRange data n) (hn : n ≤ WORD)
    (hT : 1 ≤ T) (hfit : data.length + T ≤ WORD) {t : Nat} (ht : t < T) :
    worker data T (tab n (fun _ => 0)) t = some (tab n (fun v => part_cnt data T t v)) := by
  rw [worker_eq data hT hfit ht]
  have hmono := lim_mono data.length T t
  have hle := lim_le data.length T (t + 1)
  have hb : lim data.length T t + (lim data.length T (t + 1) - lim data.length T t)
      ≤ data.length := by omega
  rw [count_loop data n hdata hn _ _ _ hb]
  congr 1
  apply tab_congr
  intro v _
  rw [← part_cnt_eq data hT hfit ht, bump_eq _ _ (by rw [WORD_eq]; omega), Nat.zero_add]
  exact Nat.mod_eq_of_lt (part_cnt_lt data T t v hfit hT)

theorem private_worker_tab (data : List Int) (T : Nat) (L : Nat → List Nat) {k : Nat}
    (hk : k < T) (row : List Nat) (h : worker data T (L k) k = some row) :
    private_worker data T (tab T L) k = some (tab T (Function.update L k row)) := by
  unfold private_worker
  rw [tab_getElem?_lt _ hk, Option.some_bind, h, Option.map_some', tab_set]

/-- The private histograms after the first `k` workers. -/
theorem private_upto (data : List Int) (n T : Nat) (hdata : InRange data n) (hn : n ≤ WORD)
    (hT : 1 ≤ T) (hfit : data.length + T ≤ WORD) :
    ∀ k, k ≤ T →
      (List.range k).foldlM (private_worker data T) (tab T (fun _ => tab n (fun _ => 0)))
        = some (tab T (fun t =>
            if t < k then tab n (fun v => part_cnt data T t v) else tab n (fun _ => 0))) := by
  intro k
  induction k with
  | zero =>
    intro _
    simp only [Nat.not_lt_zero, if_false]
    rfl
  | succ k ih =>
    intro hk
    have hk1 : k ≤ T := by omega
    have hk2 : k < T := by omega
    rw [foldlM_range_succ, ih hk1, Option.some_bind]
    have hrow : worker data T
        ((fun t => if t < k then tab n (fun v => part_cnt data T t v) else tab n (fun _ => 0)) k) k
        = some (tab n (fun v => part_cnt data T k v)) := by
      show worker data T
        (if k < k then tab n (fun v => part_cnt data T k v) else tab n (fun _ => 0)) k = _
      rw [if_neg (Nat.lt_irrefl k)]
      exact private_row data n T hdata hn hT hfit hk2
    rw [private_worker_tab data T _ hk2 _ hrow]
    congr 1
    apply tab_congr
    intro t _
    by_cases ht : t = k
    · rw [ht, Function.update_same, if_pos (Nat.lt_succ_self k)]
    · rw [Function.update_noteq ht]
      by_cases h1 : t < k
      · have h2 : t < k + 1 := by omega
        rw [if_pos h1, if_pos h2]
      · have h2 : ¬ t < k + 1 := by omega
        rw [if_neg h1, if_neg h2]

theorem private_locals (data : List Int) (n T : Nat) (hdata : InRange data n) (hn : n ≤ WORD)
    (hT : 1 ≤ T) (hfit : data.length + T ≤ WORD) :
    spawn_join T (private_worker data T) (List.replicate T (List.replicate n 0))
      = some (tab T (fun t => tab n (fun v => part_cnt data T t v))) := by
  unfold spawn_join
  rw [replicate_eq_tab, replicate_eq_tab,
    private_upto data n T hdata hn hT hfit T (Nat.le_refl T)]
  congr 1
  apply tab_congr
  intro t ht
  simp [ht]

theorem acc_succ (R : Nat → Nat → Nat) (j v x : Nat) :
    acc R (j + 1) v x = (acc R j v x + R j v) % WORD := by
  simp [acc, List.range_succ]

theorem acc_eq (R : Nat → Nat → Nat) (v x : Nat) (hx : x < WORD) :
    ∀ j, acc R j v x = (x + ∑ t ∈ Finset.range j, R t v) % WORD := by
  intro j
  induction j with
  | zero => simp [acc, Nat.mod_eq_of_lt hx]
  | succ j ih =>
    rw [acc_succ, ih, Finset.sum_range_succ, Nat.mod_add_mod, Nat.add_assoc]

theorem reduce_loop (n T : Nat) (R : Nat → Nat → Nat) (F : Nat → Nat) :
    reduce (tab T (fun t => tab n (R t))) n T (tab n F)
      = some (tab n (fun v => acc R T v (F v))) := by
  have key : ∀ j, j ≤ T →
      (List.range j).foldlM
        (fun out t =>
          match (tab T (fun t => tab n (R t)))[t]? with
          | some row => forRange 0 n (reduce_step row) out
          | none => none)
        (tab n F)
        = some (tab n (fun v => acc R j v (F v))) := by
    intro j
    induction j with
    | zero =>
      intro _
      rfl
    | succ j ih =>
      intro hj
      have hj1 : j ≤ T := by omega
      have hj2 : j < T := by omega
      rw [foldlM_range_succ, ih hj1, Option.some_bind, tab_getElem?_lt _ hj2]
      simp only []
      rw [reduce_row_loop]
      congr 1
      apply tab_congr
      intro v _
      rw [acc_succ]
  unfold reduce
  rw [forRange_zero, key T (Nat.le_refl T)]

/-- The thread-local strategy adds the occurrence counts onto the content of
the output histogram. -/
theorem private_closed (data : List Int) (n T : Nat) (hdata : InRange data n) (hn : n ≤ WORD)
    (hT : 1 ≤ T) (hfit : data.length + T ≤ WORD) (F : Nat → Nat) :
    compute_hist_private_threads data n (tab n F) T
      = some (tab n (fun v => acc (part_cnt data T) T v (F v))) := by
  unfold compute_hist_private_threads
  rw [private_locals data n T hdata hn hT hfit]
  simp only []
  rw [reduce_loop]

/-! ## Independence of the schedule

The strategies are embedded with the workers running one after another.  The
increments commute, so every other order in which the same indices are counted
leaves the same counters. -/

theorem incr_comm_tab (n : Nat) (F : Nat → Nat) (u w : Nat) :
    (incr (tab n F) u).bind (fun h1 => incr h1 w)
      = (incr (tab n F) w).bind (fun h1 => incr h1 u) := by
  by_cases hu : u < n
  · by_cases hw : w < n
    · rw [incr_tab F hu, incr_tab F hw, Option.some_bind, Option.some_bind,
        incr_tab _ hw, incr_tab _ hu]
      by_cases e : u = w
      · rw [e]
      · have e2 : w ≠ u := fun h => e h.symm
        rw [Function.update_noteq e2, Function.update_noteq e, Function.update_comm e]
    · have hw2 : n ≤ w := Nat.le_of_not_lt hw
      rw [incr_tab F hu, Option.some_bind, incr_tab_ge _ hw2, incr_tab_ge F hw2]
      rfl
  · have hu2 : n ≤ u := Nat.le_of_not_lt hu
    rw [incr_tab_ge F hu2]
    by_cases hw : w < n
    · rw [incr_tab F hw, Option.some_bind, incr_tab_ge _ hu2]
      rfl
    · rw [incr_tab_ge F (Nat.le_of_not_lt hw)]
      rfl

theorem incr_comm (h : List Nat) (u w : Nat) :
    (incr h u).bind (fun h1 => incr h1 w) = (incr h w).bind (fun h1 => incr h1 u) := by
  rw [eq_tab h]
  exact incr_comm_tab _ _ u w

theorem count_at_some (data : List Int) {i : Nat} {x : Int} (hx : data[i]? = some x) :
    (fun h => count_at data h i) = fun h => incr h (toSizeT x) := by
  funext h
  unfold count_at
  rw [hx]

theorem count_at_none (data : List Int) {i : Nat} (hx : data[i]? = none) :
    (fun h => count_at data h i) = fun _ => none := by
  funext h
  unfold count_at
  rw [hx]

theorem bind_none_fun {α β : Type} (o : Option α) : o.bind (fun _ => (none : Option β)) = none := by
  cases o <;> rfl

theorem count_at_comm (data : List Int) (h : List Nat) (a b : Nat) :
    (count_at data h a).bind (fun h1 => count_at data h1 b)
      = (count_at data h b).bind (fun h1 => count_at data h1 a) := by
  cases ha : data[a]? with
  | none =>
    have e := count_at_none data ha
    rw [e, show count_at data h a = none from congrFun e h, bind_none_fun]
    rfl
  | some x =>
    cases hb : data[b]? with
    | none =>
      have e := count_at_none data hb
      rw [e, show count_at data h b = none from congrFun e h, bind_none_fun]
      rfl
    | some y =>
      have ea := count_at_some data ha
      have eb := count_at_some data hb
      rw [ea, eb, show count_at data h a = incr h (toSizeT x) from congrFun ea h,
        show count_at data h b = incr h (toSizeT y) from congrFun eb h]
      exact incr_comm h _ _

theorem foldlM_cons_cons {σ : Type} (f : σ → Nat → Option σ) (a b : Nat) (l : List Nat) (h : σ) :
    (a :: b :: l).foldlM f h
      = ((f h a).bind (fun h1 => f h1 b)).bind (fun h2 => l.foldlM f h2) := by
  rw [List.foldlM_cons]
  cases f h a with
  | none => rfl
  | some h1 =>
    show (b :: l).foldlM f h1 = (f h1 b).bind (fun h2 => l.foldlM f h2)
    rw [List.foldlM_cons]
    rfl

/-- Counting the same indices in another order gives the same counters. -/
theorem schedule_irrelevant (data : List Int) {l1 l2 : List Nat} (hp : l1.Perm l2) :
    ∀ h : List Nat, l1.foldlM (count_at data) h = l2.foldlM (count_at data) h := by
  induction hp with
  | nil =>
    intro h
    rfl
  | cons a _ ih =>
    intro h
    rw [List.foldlM_cons, List.foldlM_cons]
    congr 1
    funext h1
    exact ih h1
  | swap a b l =>
    intro h
    rw [foldlM_cons_cons, foldlM_cons_cons, count_at_comm]
  | trans _ _ ih1 ih2 =>
    intro h
    rw [ih1 h, ih2 h]

theorem spawn_join_succ {σ : Type} (w : σ → Nat → Option σ) (s : σ) (k : Nat) :
    spawn_join (k + 1) w s = (spawn_join k w s).bind (fun s1 => w s1 k) := by
  unfold spawn_join
  exact foldlM_range_succ w s k

theorem foldlM_append_bind {σ : Type} (f : σ → Nat → Option σ) (s : σ) (l1 l2 : List Nat) :
    (l1 ++ l2).foldlM f s = (l1.foldlM f s).bind (fun s1 => l2.foldlM f s1) := by
  rw [List.foldlM_append]
  rfl

theorem spawn_join_eq_order (data : List Int) (T : Nat) (h : List Nat) :
    ∀ k, spawn_join k (worker data T) h
      = (sequential_order data.length T k).foldlM (count_at data) h := by
  intro k
  induction k with
  | zero =>
    unfold spawn_join sequential_order
    rw [List.range_zero, List.foldlM_nil, List.foldlM_nil]
  | succ k ih =>
    rw [spawn_join_succ, ih, sequential_order, foldlM_append_bind]
    congr 1

/-- Every interleaving of the increments of the workers, that is every order
of the indices of the sequential schedule, leaves the counters the sequential
schedule leaves. -/
theorem interleaving_irrelevant (data : List Int) (T : Nat) (h : List Nat) (sched : List Nat)
    (hp : sched.Perm (sequential_order data.length T T)) :
    sched.foldlM (count_at data) h = spawn_join T (worker data T) h := by
  rw [spawn_join_eq_order data T h T]
  exact schedule_irrelevant data hp h

/-! ## Final forms on an arbitrary output vector -/

theorem histogram_of_eq_tab (data : List Int) (range : Nat) :
    histogram_of data range = tab range (fun v => data.count (v : Int)) := rfl

theorem getD_lt_WORD (h0 : List Nat) (hu : ∀ x ∈ h0, x < WORD) (v : Nat) :
    h0.getD v 0 < WORD := by
  by_cases hv : v < h0.length
  · have e : h0.getD v 0 = h0[v] := by
      simp [List.getD, List.getElem?_eq_getElem hv]
    rw [e]
    exact hu _ (List.getElem_mem hv)
  · have e : h0.getD v 0 = 0 := by
      simp [List.getD, List.getElem?_eq_none (Nat.le_of_not_lt hv)]
    rw [e, WORD_eq]
    omega

theorem count_lt_WORD (data : List Int) (T : Nat) (hfit : data.length + T ≤ WORD) (hT : 1 ≤ T)
    (v : Nat) : data.count (v : Int) < WORD := by
  have h := List.count_le_length (v : Int) data
  omega

theorem private_final (data : List Int) (range T : Nat) (hdata : InRange data range)
    (hr : range ≤ WORD) (hT : 1 ≤ T) (hfit : data.length + T ≤ WORD)
    (h0 : List Nat) (hlen : h0.length = range) (hu : ∀ x ∈ h0, x < WORD) :
    compute_hist_private_threads data range h0 T
      = some (tab range (fun v => (h0.getD v 0 + data.count (v : Int)) % WORD)) := by
  have e : h0 = tab range (fun k => h0.getD k 0) := by
    have := eq_tab h0
    rwa [hlen] at this
  have h := private_closed data range T hdata hr hT hfit (fun k => h0.getD k 0)
  rw [← e] at h
  rw [h]
  congr 1
  apply tab_congr
  intro v _
  rw [acc_eq _ _ _ (getD_lt_WORD h0 hu v), sum_part_cnt_all data hT hfit]

theorem mutex_final (data : List Int) (range T : Nat) (hdata : InRange data range)
    (hr : range ≤ WORD) (hT : 1 ≤ T) (hfit : data.length + T ≤ WORD)
    (h0 : List Nat) (hlen : h0.length = range) (hu : ∀ x ∈ h0, x < WORD) :
    compute_hist_mutex data range h0 T
      = some (tab range (fun v => (h0.getD v 0 + data.count (v : Int)) % WORD)) := by
  have e : h0 = tab range (fun k => h0.getD k 0) := by
    have := eq_tab h0
    rwa [hlen] at this
  have h := mutex_closed data range T hdata hr hT hfit (fun k => h0.getD k 0)
  rw [← e] at h
  rw [h]
  congr 1
  apply tab_congr
  intro v _
  rw [bump_eq _ _ (getD_lt_WORD h0 hu v)]

theorem atomic_final (data : List Int) (range T : Nat) (hdata : InRange data range)
    (hr : range ≤ WORD) (hT : 1 ≤ T) (hfit : data.length + T ≤ WORD)
    (h0 : List Nat) (hlen : h0.length = range) :
    compute_hist_atomic data range h0 T = some (histogram_of data range) := by
  have e : h0 = tab range (fun k => h0.getD k 0) := by
    have := eq_tab h0
    rwa [hlen] at this
  have h := atomic_closed data range T hdata hr hT hfit (fun k => h0.getD k 0)
  rw [← e] at h
  rw [h, histogram_of_eq_tab]
  congr 1
  apply tab_congr
  intro v _
  rw [bump_eq _ _ (by rw [WORD_eq]; omega), Nat.zero_add]
  exact Nat.mod_eq_of_lt (count_lt_WORD data T hfit hT v)

theorem zeros_add (data : List Int) (range T : Nat) (hT : 1 ≤ T)
    (hfit : data.length + T ≤ WORD) :
    tab range (fun v => ((List.replicate range 0).getD v 0 + data.count (v : Int)) % WORD)
      = histogram_of data range := by
  rw [histogram_of_eq_tab]
  apply tab_congr
  intro v hv
  have e : (List.replicate range 0).getD v 0 = 0 := by
    simp [List.getD, hv]
  rw [e, Nat.zero_add]
  exact Nat.mod_eq_of_lt (count_lt_WORD data T hfit hT v)

theorem zeros_lt (range : Nat) : ∀ x ∈ List.replicate range 0, x < WORD := by
  intro x hx
  rw [(List.mem_replicate.mp hx).2, WORD_eq]
  omega

theorem private_zero (data : List Int) (range T : Nat) (hdata : InRange data range)
    (hr : range ≤ WORD) (hT : 1 ≤ T) (hfit : data.length + T ≤ WORD) :
    compute_hist_private_threads data range (List.replicate range 0) T
      = some (histogram_of data range) := by
  rw [private_final data range T hdata hr hT hfit _ (List.length_replicate _ _) (zeros_lt range),
    zeros_add data range T hT hfit]

theorem mutex_zero (data : List Int) (range T : Nat) (hdata : InRange data range)
    (hr : range ≤ WORD) (hT : 1 ≤ T) (hfit : data.length + T ≤ WORD) :
    compute_hist_mutex data range (List.replicate range 0) T
      = some (histogram_of data range) := by
  rw [mutex_final data range T hdata hr hT hfit _ (List.length_replicate _ _) (zeros_lt range),
    zeros_add data range T hT hfit]

theorem atomic_zero (data : List Int) (range T : Nat) (hdata : InRange data range)
    (hr : range ≤ WORD) (hT : 1 ≤ T) (hfit : data.length + T ≤ WORD) :
    compute_hist_atomic data range (List.replicate range 0) T
      = some (histogram_of data range) :=
  atomic_final data range T hdata hr hT hfit _ (List.length_replicate _ _)

/-! ## The total of a histogram -/

theorem sum_indicator (a : Int) (n : Nat) (h0 : 0 ≤ a) (h1 : a < (n : Int)) :
    ∑ v ∈ Finset.range n, (if a = (v : Int) then 1 else 0) = 1 := by
  have hmem : a.toNat ∈ Finset.range n := by
    rw [Finset.mem_range]
    omega
  rw [Finset.sum_eq_single_of_mem a.toNat hmem]
  · have e : a = ((a.toNat : Nat) : Int) := by omega
    rw [if_pos e]
  · intro b _ hb
    have e : ¬ a = (b : Int) := by omega
    rw [if_neg e]

theorem sum_count (data : List Int) (n : Nat) (hdata : InRange data n) :
    ∑ v ∈ Finset.range n, data.count (v : Int) = data.length := by
  induction data with
  | nil => simp
  | cons a l ih =>
    have hl : InRange l n := fun x hx => hdata x (List.mem_cons_of_mem a hx)
    obtain ⟨h0, h1⟩ := hdata a (List.mem_cons_self a l)
    have e : ∀ v : Nat, (a :: l).count (v : Int)
        = l.count (v : Int) + (if a = (v : Int) then 1 else 0) := by
      intro v
      rw [List.count_cons]
      by_cases h : a = (v : Int)
      · simp [h]
      · simp [h]
    simp only [e]
    rw [Finset.sum_add_distrib, ih hl, sum_indicator a n h0 h1, List.length_cons]

theorem histogram_of_sum (data : List Int) (range : Nat) (hdata : InRange data range) :
    (histogram_of data range).sum = data.length := by
  rw [histogram_of_eq_tab, tab_sum, sum_count data range hdata]

theorem histogram_of_length (data : List Int) (range : Nat) :
    (histogram_of data range).length = range := by
  rw [histogram_of_eq_tab, tab_length]

theorem foldl_sum_mod (l : List Nat) :
    ∀ a, a + l.sum < WORD → l.foldl (fun s v => (s + v) % WORD) a = a + l.sum := by
  induction l with
  | nil =>
    intro a _
    simp
  | cons x l ih =>
    intro a h
    rw [List.sum_cons] at h
    rw [List.foldl_cons, Nat.mod_eq_of_lt (by omega), ih (a + x) (by omega), List.sum_cons]
    omega

theorem verify_sum_eq (l : List Nat) (h : l.sum < WORD) : verify_sum l = l.sum := by
  unfold verify_sum
  rw [foldl_sum_mod l 0 (by omega), Nat.zero_add]

/-! ## Work partitioner -/

/-- C1: for `threads ≥ 1` (and `N + threads` representable in `size_t`) the
chunk is `ceil(N / threads)`, worker `t` owns `[t * chunk, min N (t * chunk + chunk))`,
every index below `N` lies in the interval of some worker, no index lies in the
intervals of two workers, and a worker with `t * chunk ≥ N` owns no index; for
`N > 0` such a worker exists only when `threads * chunk > N`, and with
`threads > N` the last worker is one. -/
theorem partition_disjoint_cover (N threads : Nat) (hT : 1 ≤ threads)
    (hfit : N + threads ≤ WORD) :
    (N ≤ threads * chunk N threads ∧ threads * chunk N threads < N + threads) ∧
    (∀ t, t < threads → start N threads t = t * chunk N threads ∧
        stop N threads t = min N (start N threads t + chunk N threads)) ∧
    (∀ i, i < N ↔ ∃ t, t < threads ∧ start N threads t ≤ i ∧ i < stop N threads t) ∧
    (∀ t1 t2 i, t1 < threads → t2 < threads →
        start N threads t1 ≤ i → i < stop N threads t1 →
        start N threads t2 ≤ i → i < stop N threads t2 → t1 = t2) ∧
    (∀ t, t < threads → N ≤ t * chunk N threads →
        ∀ i, ¬ (start N threads t ≤ i ∧ i < stop N threads t)) ∧
    (∀ t, t < threads → N ≤ t * chunk N threads → 0 < N → N < threads * chunk N threads) ∧
    (N < threads → N ≤ (threads - 1) * chunk N threads) := by
  have hle := le_chunk_mul hT hfit
  have hge := chunk_mul_le hT hfit
  refine ⟨⟨hle, by omega⟩, ?_, ?_, ?_, ?_, ?_, ?_⟩
  · intro t ht
    refine ⟨start_eq hT hfit ht, ?_⟩
    rw [stop_eq hT hfit ht, start_eq hT hfit ht]
  · intro i
    constructor
    · intro hi
      have hc : 0 < chunk N threads := by
        rcases Nat.eq_zero_or_pos (chunk N threads) with h | h
        · rw [h, Nat.mul_zero] at hle
          omega
        · exact h
      have hq : i / chunk N threads < threads := by
        apply Nat.div_lt_of_lt_mul
        rw [Nat.mul_comm]
        omega
      have h1 := Nat.div_add_mod i (chunk N threads)
      have h2 := Nat.mod_lt i hc
      have h3 : i / chunk N threads * chunk N threads = chunk N threads * (i / chunk N threads) :=
        Nat.mul_comm _ _
      refine ⟨i / chunk N threads, hq, ?_, ?_⟩
      · rw [start_eq hT hfit hq]
        omega
      · rw [stop_eq hT hfit hq]
        omega
    · rintro ⟨t, _, _, h⟩
      have : stop N threads t ≤ N := by
        unfold stop
        exact Nat.min_le_left _ _
      omega
  · intro t1 t2 i h1 h2 a1 b1 a2 b2
    rw [start_eq hT hfit h1] at a1
    rw [start_eq hT hfit h2] at a2
    rw [stop_eq hT hfit h1] at b1
    rw [stop_eq hT hfit h2] at b2
    rcases Nat.lt_trichotomy t1 t2 with h | h | h
    · have hm : (t1 + 1) * chunk N threads ≤ t2 * chunk N threads :=
        Nat.mul_le_mul_right _ h
      rw [Nat.add_mul, Nat.one_mul] at hm
      omega
    · exact h
    · have hm : (t2 + 1) * chunk N threads ≤ t1 * chunk N threads :=
        Nat.mul_le_mul_right _ h
      rw [Nat.add_mul, Nat.one_mul] at hm
      omega
  · intro t ht hbig i hi
    obtain ⟨a, b⟩ := hi
    rw [start_eq hT hfit ht] at a
    have : stop N threads t ≤ N := by
      unfold stop
      exact Nat.min_le_left _ _
    omega
  · intro t ht hbig hN
    have h2 := succ_mul_chunk_le N ht
    rcases Nat.eq_zero_or_pos (chunk N threads) with h | h
    · rw [h, Nat.mul_zero] at hbig
      omega
    · omega
  · intro hlt
    rcases Nat.eq_zero_or_pos N with h | h
    · rw [h]
      exact Nat.zero_le _
    · have hc : 1 ≤ chunk N threads := by
        rcases Nat.eq_zero_or_pos (chunk N threads) with h2 | h2
        · rw [h2, Nat.mul_zero] at hle
          omega
        · exact h2
      have hm : (threads - 1) * 1 ≤ (threads - 1) * chunk N threads :=
        Nat.mul_le_mul_left _ hc
      omega

/-- C1 at `N = 2`, `threads = 4`. -/
theorem partition_disjoint_cover_witness :
    1 ≤ 4 ∧ 2 + 4 ≤ WORD ∧
    (2 ≤ 4 * chunk 2 4 ∧ 4 * chunk 2 4 < 2 + 4) ∧
    (∀ t, t < 4 → start 2 4 t = t * chunk 2 4 ∧
        stop 2 4 t = min 2 (start 2 4 t + chunk 2 4)) ∧
    (∀ i, i < 2 ↔ ∃ t, t < 4 ∧ start 2 4 t ≤ i ∧ i < stop 2 4 t) ∧
    (∀ t1 t2 i, t1 < 4 → t2 < 4 →
        start 2 4 t1 ≤ i → i < stop 2 4 t1 →
        start 2 4 t2 ≤ i → i < stop 2 4 t2 → t1 = t2) ∧
    (∀ t, t < 4 → 2 ≤ t * chunk 2 4 →
        ∀ i, ¬ (start 2 4 t ≤ i ∧ i < stop 2 4 t)) ∧
    (∀ t, t < 4 → 2 ≤ t * chunk 2 4 → 0 < 2 → 2 < 4 * chunk 2 4) ∧
    (2 < 4 → 2 ≤ (4 - 1) * chunk 2 4) :=
  ⟨by decide, by decide, partition_disjoint_cover 2 4 (by decide) (by decide)⟩

/-! ## The strategies on the zeroed histogram of the runner -/

/-- C2: on a dataset whose values lie in `[0, range)`, with `threads ≥ 1` and
a zero-initialised output histogram of length `range`, each of the three
strategies returns a histogram of length `range` whose bins sum to the dataset
length `N`. -/
theorem total_count_invariant (data : List Int) (range threads : Nat)
    (hdata : InRange data range) (hr : range ≤ WORD) (hT : 1 ≤ threads)
    (hfit : data.length + threads ≤ WORD) :
    (∃ out, compute_hist_private_threads data range (List.replicate range 0) threads = some out
      ∧ out.length = range ∧ out.sum = data.length) ∧
    (∃ out, compute_hist_mutex data range (List.replicate range 0) threads = some out
      ∧ out.length = range ∧ out.sum = data.length) ∧
    (∃ out, compute_hist_atomic data range (List.replicate range 0) threads = some out
      ∧ out.length = range ∧ out.sum = data.length) :=
  ⟨⟨_, private_zero data range threads hdata hr hT hfit, histogram_of_length data range,
      histogram_of_sum data range hdata⟩,
    ⟨_, mutex_zero data range threads hdata hr hT hfit, histogram_of_length data range,
      histogram_of_sum data range hdata⟩,
    ⟨_, atomic_zero data range threads hdata hr hT hfit, histogram_of_length data range,
      histogram_of_sum data range hdata⟩⟩

/-- C2 at the dataset `[0,1,1,2,0,1]`, `range = 3`, `threads = 4`. -/
theorem total_count_invariant_witness :
    InRange [0, 1, 1, 2, 0, 1] 3 ∧ 3 ≤ WORD ∧ 1 ≤ 4 ∧
    [(0 : Int), 1, 1, 2, 0, 1].length + 4 ≤ WORD ∧
    (∃ out, compute_hist_private_threads [0, 1, 1, 2, 0, 1] 3 (List.replicate 3 0) 4 = some out
      ∧ out.length = 3 ∧ out.sum = [(0 : Int), 1, 1, 2, 0, 1].length) ∧
    (∃ out, compute_hist_mutex [0, 1, 1, 2, 0, 1] 3 (List.replicate 3 0) 4 = some out
      ∧ out.length = 3 ∧ out.sum = [(0 : Int), 1, 1, 2, 0, 1].length) ∧
    (∃ out, compute_hist_atomic [0, 1, 1, 2, 0, 1] 3 (List.replicate 3 0) 4 = some out
      ∧ out.length = 3 ∧ out.sum = [(0 : Int), 1, 1, 2, 0, 1].length) :=
  ⟨by decide, by decide, by decide, by decide,
    total_count_invariant [0, 1, 1, 2, 0, 1] 3 4 (by decide) (by decide) (by decide)
      (by decide)⟩

/-- C3: on a dataset whose values lie in `[0, range)`, with `threads ≥ 1` and
a zero-initialised output histogram, each of the three strategies returns the
histogram whose bin `v` is the number of occurrences of `v` in the dataset,
whatever the thread count; and on the dataset `[0,1,1,2,0,1]` with `range = 3`
every thread count from 1 to 6 gives `[2,3,1]`, of total 6, for the three
strategies. -/
theorem per_bin_correct (data : List Int) (range threads : Nat)
    (hdata : InRange data range) (hr : range ≤ WORD) (hT : 1 ≤ threads)
    (hfit : data.length + threads ≤ WORD) :
    (compute_hist_private_threads data range (List.replicate range 0) threads
        = some (histogram_of data range) ∧
      compute_hist_mutex data range (List.replicate range 0) threads
        = some (histogram_of data range) ∧
      compute_hist_atomic data range (List.replicate range 0) threads
        = some (histogram_of data range)) ∧
    (∀ v, v < range → (histogram_of data range)[v]? = some (data.count (v : Int))) ∧
    (∀ T ∈ [1, 2, 3, 4, 5, 6],
      compute_hist_private_threads [0, 1, 1, 2, 0, 1] 3 [0, 0, 0] T = some [2, 3, 1] ∧
      compute_hist_mutex [0, 1, 1, 2, 0, 1] 3 [0, 0, 0] T = some [2, 3, 1] ∧
      compute_hist_atomic [0, 1, 1, 2, 0, 1] 3 [0, 0, 0] T = some [2, 3, 1] ∧
      List.sum [2, 3, 1] = 6) := by
  refine ⟨⟨private_zero data range threads hdata hr hT hfit,
    mutex_zero data range threads hdata hr hT hfit,
    atomic_zero data range threads hdata hr hT hfit⟩, ?_, by decide⟩
  intro v hv
  rw [histogram_of_eq_tab, tab_getElem?_lt _ hv]

/-- C3 at the dataset `[0,1,1,2,0,1]`, `range = 3`, `threads = 5`. -/
theorem per_bin_correct_witness :
    InRange [0, 1, 1, 2, 0, 1] 3 ∧ 3 ≤ WORD ∧ 1 ≤ 5 ∧
    [(0 : Int), 1, 1, 2, 0, 1].length + 5 ≤ WORD ∧
    compute_hist_private_threads [0, 1, 1, 2, 0, 1] 3 (List.replicate 3 0) 5
        = some (histogram_of [0, 1, 1, 2, 0, 1] 3) ∧
      compute_hist_mutex [0, 1, 1, 2, 0, 1] 3 (List.replicate 3 0) 5
        = some (histogram_of [0, 1, 1, 2, 0, 1] 3) ∧
      compute_hist_atomic [0, 1, 1, 2, 0, 1] 3 (List.replicate 3 0) 5
        = some (histogram_of [0, 1, 1, 2, 0, 1] 3) :=
  ⟨by decide, by decide, by decide, by decide,
    (per_bin_correct [0, 1, 1, 2, 0, 1] 3 5 (by decide) (by decide) (by decide) (by decide)).1⟩

/-- C4: on a dataset whose values lie in `[0, range)`, with `threads ≥ 1` and
the zero-initialised output histogram of length `range` that the runner hands
to a strategy, the three strategies return the same histogram, bin for bin. -/
theorem strategy_equivalence (data : List Int) (range threads : Nat)
    (hdata : InRange data range) (hr : range ≤ WORD) (hT : 1 ≤ threads)
    (hfit : data.length + threads ≤ WORD) :
    ∃ out, out.length = range ∧
      compute_hist_private_threads data range (List.replicate range 0) threads = some out ∧
      compute_hist_mutex data range (List.replicate range 0) threads = some out ∧
      compute_hist_atomic data range (List.replicate range 0) threads = some out :=
  ⟨_, histogram_of_length data range, private_zero data range threads hdata hr hT hfit,
    mutex_zero data range threads hdata hr hT hfit,
    atomic_zero data range threads hdata hr hT hfit⟩

/-- C4 at the dataset `[0,1,1,2,0,1]`, `range = 3`, `threads = 2`. -/
theorem strategy_equivalence_witness :
    InRange [0, 1, 1, 2, 0, 1] 3 ∧ 3 ≤ WORD ∧ 1 ≤ 2 ∧
    [(0 : Int), 1, 1, 2, 0, 1].length + 2 ≤ WORD ∧
    ∃ out, out.length = 3 ∧
      compute_hist_private_threads [0, 1, 1, 2, 0, 1] 3 (List.replicate 3 0) 2 = some out ∧
      compute_hist_mutex [0, 1, 1, 2, 0, 1] 3 (List.replicate 3 0) 2 = some out ∧
      compute_hist_atomic [0, 1, 1, 2, 0, 1] 3 (List.replicate 3 0) 2 = some out :=
  ⟨by decide, by decide, by decide, by decide,
    strategy_equivalence [0, 1, 1, 2, 0, 1] 3 2 (by decide) (by decide) (by decide) (by decide)⟩

/-! ## Reduction of the thread-local strategy -/

theorem locals_sum_eq (data : List Int) {T : Nat} (hT : 1 ≤ T)
    (hfit : data.length + T ≤ WORD) (v : Nat) :
    locals_sum data T v = data.count (v : Int) := by
  have h := tab_sum T (fun t => part_cnt data T t v)
  unfold tab at h
  unfold locals_sum
  rw [h, sum_part_cnt_all data hT hfit]

/-- The reduction onto an arbitrary content `h0` of the output histogram: the
workers leave in `local[t][v]` the count of value `v` in the partition of
worker `t`, and every bin ends at its content on entry plus the sum of the
private counts, modulo `2^64`. -/
theorem reduction_onto (data : List Int) (range threads : Nat)
    (hdata : InRange data range) (hr : range ≤ WORD) (hT : 1 ≤ threads)
    (hfit : data.length + threads ≤ WORD)
    (h0 : List Nat) (hlen : h0.length = range) (hu : ∀ x ∈ h0, x < WORD) :
    ∃ locals out,
      spawn_join threads (private_worker data threads)
          (List.replicate threads (List.replicate range 0)) = some locals ∧
      locals = (List.range threads).map
          (fun t => (List.range range).map (fun v => part_cnt data threads t v)) ∧
      reduce locals range threads h0 = some out ∧
      compute_hist_private_threads data range h0 threads = some out ∧
      out.length = range ∧
      (∀ v, v < range →
        out[v]? = some ((h0.getD v 0 + locals_sum data threads v) % WORD)) ∧
      (h0 = List.replicate range 0 →
        ∀ v, v < range → out[v]? = some (locals_sum data threads v)) := by
  have hloc := private_locals data range threads hdata hr hT hfit
  have hfin := private_final data range threads hdata hr hT hfit h0 hlen hu
  have hred : reduce (tab threads (fun t => tab range (fun v => part_cnt data threads t v)))
      range threads h0
      = some (tab range (fun v => (h0.getD v 0 + data.count (v : Int)) % WORD)) := by
    have h := hfin
    unfold compute_hist_private_threads at h
    rw [hloc] at h
    exact h
  refine ⟨_, _, hloc, rfl, hred, hfin, tab_length _ _, ?_, ?_⟩
  · intro v hv
    rw [tab_getElem?_lt _ hv, locals_sum_eq data hT hfit]
  · intro hz v hv
    rw [tab_getElem?_lt _ hv, locals_sum_eq data hT hfit, hz]
    have e : (List.replicate range 0).getD v 0 = 0 := by
      simp [List.getD, hv]
    rw [e, Nat.zero_add, Nat.mod_eq_of_lt (count_lt_WORD data threads hfit hT v)]

theorem locals_sum_zero (data : List Int) (v : Nat) : locals_sum data 0 v = 0 := by
  unfold locals_sum
  rw [List.range_zero, List.map_nil, List.sum_nil]

theorem private_no_worker (data : List Int) (range : Nat) :
    spawn_join 0 (private_worker data 0) (List.replicate 0 (List.replicate range 0))
      = some [] := by
  unfold spawn_join
  rw [List.range_zero, List.foldlM_nil, List.replicate_zero]
  rfl

theorem reduce_no_worker (range : Nat) (out_hist : List Nat) :
    reduce [] range 0 out_hist = some out_hist := by
  unfold reduce
  rw [forRange_zero, List.range_zero, List.foldlM_nil]
  rfl

/-- C5: on a dataset whose values lie in `[0, range)` and the zero-initialised
global histogram of the runner, `compute_hist_private_threads` returns; the
workers leave in `local[t][v]` the number of indices `i` of worker `t`'s
partition with `data[i] = v`, and after the reduction every bin `v` in
`[0, range)` of the global histogram is the sum over the workers `t` in
`[0, threads)` of `local[t][v]`. -/
theorem reduction_sum (data : List Int) (range threads : Nat)
    (hdata : InRange data range) (hr : range ≤ WORD)
    (hfit : data.length + threads ≤ WORD) :
    ∃ locals out,
      spawn_join threads (private_worker data threads)
          (List.replicate threads (List.replicate range 0)) = some locals ∧
      locals = (List.range threads).map
          (fun t => (List.range range).map (fun v => part_cnt data threads t v)) ∧
      reduce locals range threads (List.replicate range 0) = some out ∧
      compute_hist_private_threads data range (List.replicate range 0) threads = some out ∧
      out.length = range ∧
      (∀ v, v < range → out[v]? = some (locals_sum data threads v)) := by
  rcases Nat.eq_zero_or_pos threads with hz | hpos
  · subst hz
    have h1 := private_no_worker data range
    have h2 := reduce_no_worker range (List.replicate range 0)
    refine ⟨[], List.replicate range 0, h1, rfl, h2, ?_, List.length_replicate _ _, ?_⟩
    · unfold compute_hist_private_threads
      rw [h1]
      exact h2
    · intro v hv
      rw [locals_sum_zero, List.getElem?_replicate_of_lt hv]
  · obtain ⟨locals, out, a, b, c, d, e, _, g⟩ :=
      reduction_onto data range threads hdata hr hpos hfit (List.replicate range 0)
        (List.length_replicate _ _) (zeros_lt range)
    exact ⟨locals, out, a, b, c, d, e, g rfl⟩

/-- C5 at the dataset `[0,1,1,2,0,1]`, `range = 3`, `threads = 2`. -/
theorem reduction_sum_witness :
    InRange [0, 1, 1, 2, 0, 1] 3 ∧ 3 ≤ WORD ∧
    [(0 : Int), 1, 1, 2, 0, 1].length + 2 ≤ WORD ∧
    ∃ locals out,
      spawn_join 2 (private_worker [0, 1, 1, 2, 0, 1] 2)
          (List.replicate 2 (List.replicate 3 0)) = some locals ∧
      locals = (List.range 2).map
          (fun t => (List.range 3).map (fun v => part_cnt [0, 1, 1, 2, 0, 1] 2 t v)) ∧
      reduce locals 3 2 (List.replicate 3 0) = some out ∧
      compute_hist_private_threads [0, 1, 1, 2, 0, 1] 3 (List.replicate 3 0) 2 = some out ∧
      out.length = 3 ∧
      (∀ v, v < 3 → out[v]? = some (locals_sum [0, 1, 1, 2, 0, 1] 2 v)) :=
  ⟨by decide, by decide, by decide,
    reduction_sum [0, 1, 1, 2, 0, 1] 3 2 (by decide) (by decide) (by decide)⟩

/-! ## OpenMP backend -/

/-- C6 fails on the code: with `N = 7` and `T = 4` the intervals of
`compute_hist_private_openmp` are `[0,2)`, `[2,4)`, `[5,7)` and `[7,7)`, so
index 4 lies in none of them; the `omp for` inside the region then leaves every
thread only its static share of its own interval, so that only the indices 0
and 3 are counted: on seven zeros with `range = 1` the reduced histogram is
`[2]` where `compute_hist_private_threads` gives `[7]`.  With `N = 4` and
`T = 2` the intervals `[0,2)`, `[2,4)` do cover `[0,4)`, and the result is
still `[2]` instead of `[4]`. -/
theorem openmp_private_skips_index :
    (List.range 4).map (fun t => (omp_start 7 4 t, omp_stop 7 4 t))
      = [(0, 2), (2, 4), (5, 7), (7, 7)] ∧
    (∀ t ∈ List.range 4, ¬ (omp_start 7 4 t ≤ 4 ∧ 4 < omp_stop 7 4 t)) ∧
    InRange [0, 0, 0, 0, 0, 0, 0] 1 ∧
    compute_hist_private_openmp [0, 0, 0, 0, 0, 0, 0] 1 [0] 4 = some [2] ∧
    compute_hist_private_threads [0, 0, 0, 0, 0, 0, 0] 1 [0] 4 = some [7] ∧
    (List.range 2).map (fun t => (omp_start 4 2 t, omp_stop 4 2 t)) = [(0, 2), (2, 4)] ∧
    compute_hist_private_openmp [0, 0, 0, 0] 1 [0] 2 = some [2] ∧
    compute_hist_private_threads [0, 0, 0, 0] 1 [0] 2 = some [4] := by
  decide

/-! ## Effect on a pre-populated output histogram -/

theorem tab_inj {n : Nat} {F G : Nat → Nat} (h : some (tab n F) = some (tab n G)) :
    ∀ v, v < n → F v = G v := by
  intro v hv
  have h1 : tab n F = tab n G := Option.some.inj h
  have h2 : (tab n F)[v]? = (tab n G)[v]? := by rw [h1]
  rw [tab_getElem?_lt F hv, tab_getElem?_lt G hv] at h2
  exact Option.some.inj h2

theorem all_zero_iff (data : List Int) (range : Nat) (h0 : List Nat) (hlen : h0.length = range)
    (hu : ∀ x ∈ h0, x < WORD) (hc : ∀ v : Nat, data.count (v : Int) < WORD) :
    some (tab range (fun v => (h0.getD v 0 + data.count (v : Int)) % WORD))
        = some (histogram_of data range)
      ↔ ∀ x ∈ h0, x = 0 := by
  rw [histogram_of_eq_tab]
  constructor
  · intro h x hx
    obtain ⟨i, hi, rfl⟩ := List.getElem_of_mem hx
    have hi2 : i < range := by omega
    have h1 := tab_inj h i hi2
    have e : h0.getD i 0 = h0[i] := by
      simp [List.getD, List.getElem?_eq_getElem hi]
    have h2 := hu _ (List.getElem_mem hi)
    have h3 := hc i
    rw [e] at h1
    rw [WORD_eq] at h1 h2 h3
    omega
  · intro h
    congr 1
    apply tab_congr
    intro v hv
    have hv2 : v < h0.length := by omega
    have e : h0.getD v 0 = h0[v] := by
      simp [List.getD, List.getElem?_eq_getElem hv2]
    rw [e, h _ (List.getElem_mem hv2), Nat.zero_add]
    exact Nat.mod_eq_of_lt (hc v)

/-- C9, as stated, fails: on the dataset `[0]` with `range = 1`, `threads = 1`
and an output histogram holding `2^64 - 1` on entry, the thread-local and the
mutex strategies leave bin 0 at `0`, not at `h0[0] + count(0) = 2^64`. -/
theorem accumulation_wraps :
    InRange [0] 1 ∧ (∀ x ∈ [18446744073709551615], x < WORD) ∧
    compute_hist_private_threads [0] 1 [18446744073709551615] 1 = some [0] ∧
    compute_hist_mutex [0] 1 [18446744073709551615] 1 = some [0] ∧
    18446744073709551615 + List.count (0 : Int) [0] = 18446744073709551616 := by
  decide

/-- C9, amended: for an output histogram `h0` of length `range` holding `u64`
values, the thread-local and the mutex strategies leave bin `v` at
`(h0[v] + count(v)) mod 2^64` (which is `h0[v] + count(v)` when no bin
overflows), the atomic strategy leaves it at `count(v)` whatever `h0`, and the
three results agree exactly when `h0` is all zeros. -/
theorem accumulate_vs_overwrite (data : List Int) (range threads : Nat)
    (hdata : InRange data range) (hr : range ≤ WORD) (hT : 1 ≤ threads)
    (hfit : data.length + threads ≤ WORD)
    (h0 : List Nat) (hlen : h0.length = range) (hu : ∀ x ∈ h0, x < WORD) :
    compute_hist_private_threads data range h0 threads
      = some ((List.range range).map
          (fun (v : Nat) => (h0.getD v 0 + data.count (v : Int)) % WORD)) ∧
    compute_hist_mutex data range h0 threads
      = some ((List.range range).map
          (fun (v : Nat) => (h0.getD v 0 + data.count (v : Int)) % WORD)) ∧
    compute_hist_atomic data range h0 threads
      = some ((List.range range).map (fun (v : Nat) => data.count (v : Int))) ∧
    ((∀ v, v < range → h0.getD v 0 + data.count (v : Int) < WORD) →
      compute_hist_private_threads data range h0 threads
        = some ((List.range range).map (fun (v : Nat) => h0.getD v 0 + data.count (v : Int))) ∧
      compute_hist_mutex data range h0 threads
        = some ((List.range range).map (fun (v : Nat) => h0.getD v 0 + data.count (v : Int)))) ∧
    ((compute_hist_private_threads data range h0 threads
          = compute_hist_atomic data range h0 threads ∧
        compute_hist_mutex data range h0 threads
          = compute_hist_atomic data range h0 threads)
      ↔ ∀ x ∈ h0, x = 0) := by
  have hp := private_final data range threads hdata hr hT hfit h0 hlen hu
  have hm := mutex_final data range threads hdata hr hT hfit h0 hlen hu
  have ha := atomic_final data range threads hdata hr hT hfit h0 hlen
  have hiff := all_zero_iff data range h0 hlen hu (count_lt_WORD data threads hfit hT)
  refine ⟨hp, hm, ha, ?_, ?_⟩
  · intro hno
    have e : tab range (fun v => (h0.getD v 0 + data.count (v : Int)) % WORD)
        = tab range (fun v => h0.getD v 0 + data.count (v : Int)) := by
      apply tab_congr
      intro v hv
      exact Nat.mod_eq_of_lt (hno v hv)
    rw [hp, hm, e]
    exact ⟨rfl, rfl⟩
  · rw [hp, hm, ha]
    constructor
    · intro h
      exact hiff.mp h.1
    · intro h
      exact ⟨hiff.mpr h, hiff.mpr h⟩

/-- C9, amended, at the dataset `[0,1,1,2,0,1]`, `range = 3`, `threads = 2` and
the initial content `[5,0,7]`. -/
theorem accumulate_vs_overwrite_witness :
    InRange [0, 1, 1, 2, 0, 1] 3 ∧ (∀ x ∈ [5, 0, 7], x < WORD) ∧
    compute_hist_private_threads [0, 1, 1, 2, 0, 1] 3 [5, 0, 7] 2 = some [7, 3, 8] ∧
    compute_hist_mutex [0, 1, 1, 2, 0, 1] 3 [5, 0, 7] 2 = some [7, 3, 8] ∧
    compute_hist_atomic [0, 1, 1, 2, 0, 1] 3 [5, 0, 7] 2 = some [2, 3, 1] :=
  have h := accumulate_vs_overwrite [0, 1, 1, 2, 0, 1] 3 2 (by decide) (by decide) (by decide)
    (by decide) [5, 0, 7] (by decide) (by decide)
  ⟨by decide, by decide, h.1.trans (by decide), h.2.1.trans (by decide),
    h.2.2.1.trans (by decide)⟩

/-! ## Index safety -/

/-- C10: on a dataset whose values lie in `[0, range)`, with `threads ≥ 1` and
an output histogram of length `range`, no worker interval reaches beyond `N`,
every bin index `(size_t)data[i]` is below `range`, and the three strategies
return a result: the out-of-bounds branch is never taken. -/
theorem index_safety (data : List Int) (range threads : Nat)
    (hdata : InRange data range) (hr : range ≤ WORD) (hT : 1 ≤ threads)
    (hfit : data.length + threads ≤ WORD)
    (out_hist : List Nat) (hlen : out_hist.length = range) :
    (∀ t, stop data.length threads t ≤ data.length) ∧
    (∀ t i, start data.length threads t ≤ i → i < stop data.length threads t →
      ∃ x, data[i]? = some x ∧ toSizeT x < range) ∧
    (compute_hist_private_threads data range out_hist threads).isSome = true ∧
    (compute_hist_mutex data range out_hist threads).isSome = true ∧
    (compute_hist_atomic data range out_hist threads).isSome = true := by
  have hstop : ∀ t, stop data.length threads t ≤ data.length := by
    intro t
    unfold stop
    exact Nat.min_le_left _ _
  have e : out_hist = tab range (fun k => out_hist.getD k 0) := by
    have := eq_tab out_hist
    rwa [hlen] at this
  have hp := private_closed data range threads hdata hr hT hfit (fun k => out_hist.getD k 0)
  have hm := mutex_closed data range threads hdata hr hT hfit (fun k => out_hist.getD k 0)
  have ha := atomic_closed data range threads hdata hr hT hfit (fun k => out_hist.getD k 0)
  rw [← e] at hp hm ha
  refine ⟨hstop, ?_, ?_, ?_, ?_⟩
  · intro t i _ hi
    have hlt : i < data.length := Nat.lt_of_lt_of_le hi (hstop t)
    obtain ⟨a, b⟩ := hdata _ (List.getElem_mem hlt)
    obtain ⟨c, d⟩ := toSizeT_of_inRange a b hr
    refine ⟨data[i], List.getElem?_eq_getElem hlt, ?_⟩
    rw [c]
    exact d
  · rw [hp]; rfl
  · rw [hm]; rfl
  · rw [ha]; rfl

/-- C10 at the dataset `[0,1,1,2,0,1]`, `range = 3`, `threads = 4` and an
output histogram holding `[9,9,9]`. -/
theorem index_safety_witness :
    InRange [0, 1, 1, 2, 0, 1] 3 ∧
    (∀ t, stop [(0 : Int), 1, 1, 2, 0, 1].length 4 t ≤ [(0 : Int), 1, 1, 2, 0, 1].length) ∧
    (compute_hist_private_threads [0, 1, 1, 2, 0, 1] 3 [9, 9, 9] 4).isSome = true ∧
    (compute_hist_mutex [0, 1, 1, 2, 0, 1] 3 [9, 9, 9] 4).isSome = true ∧
    (compute_hist_atomic [0, 1, 1, 2, 0, 1] 3 [9, 9, 9] 4).isSome = true :=
  have h := index_safety [0, 1, 1, 2, 0, 1] 3 4 (by decide) (by decide) (by decide)
    (by decide) [9, 9, 9] (by decide)
  ⟨by decide, h.1, h.2.2.1, h.2.2.2.1, h.2.2.2.2⟩

/-! ## Runner -/

theorem atomic_openmp_zero (data : List Int) (range T : Nat) (hdata : InRange data range)
    (hr : range ≤ WORD) (hT : 1 ≤ T) (hfit : data.length + T ≤ WORD) :
    compute_hist_atomic_openmp data range (List.replicate range 0) T
      = some (histogram_of data range) := by
  unfold compute_hist_atomic_openmp forRange
  rw [Nat.sub_zero, replicate_eq_tab,
    count_loop data range hdata hr data.length 0 _ (by omega), histogram_of_eq_tab]
  congr 1
  apply tab_congr
  intro v _
  rw [cnt_all, bump_eq _ _ (by rw [WORD_eq]; omega), Nat.zero_add]
  exact Nat.mod_eq_of_lt (count_lt_WORD data T hfit hT v)

theorem verify_sum_histogram_of (data : List Int) (range T : Nat) (hdata : InRange data range)
    (hT : 1 ≤ T) (hfit : data.length + T ≤ WORD) :
    verify_sum (histogram_of data range) = data.length := by
  have h := histogram_of_sum data range hdata
  rw [verify_sum_eq _ (by omega), h]

theorem trials_nil (openmp : Bool) (cfg : Config) (data : List Int) (out : List Record) :
    trials openmp cfg data [] out = some (0, out) := by
  rw [trials]

theorem trials_fatal (openmp : Bool) (cfg : Config) (data : List Int) (rep : Nat)
    (rest : List Nat) (out : List Record)
    (h : dispatch openmp cfg data (List.replicate cfg.range 0) = Dispatch.fatal) :
    trials openmp cfg data (rep :: rest) out = some (1, out) := by
  rw [trials, h]

theorem trials_undefined (openmp : Bool) (cfg : Config) (data : List Int) (rep : Nat)
    (rest : List Nat) (out : List Record)
    (h : dispatch openmp cfg data (List.replicate cfg.range 0) = Dispatch.done none) :
    trials openmp cfg data (rep :: rest) out = none := by
  rw [trials, h]

theorem trials_done (openmp : Bool) (cfg : Config) (data : List Int) (rep : Nat)
    (rest : List Nat) (out : List Record) (hist : List Nat)
    (h : dispatch openmp cfg data (List.replicate cfg.range 0) = Dispatch.done (some hist)) :
    trials openmp cfg data (rep :: rest) out
      = trials openmp cfg data rest
          (out ++ [{ method := cfg.method, backend := cfg.backend, threads := cfg.threads,
                     rep := rep, total_count := verify_sum hist,
                     ok := decide (verify_sum hist = cfg.N) }]) := by
  rw [trials, h]

theorem trials_verified (openmp : Bool) (cfg : Config) (data : List Int) :
    ∀ (l : List Nat) (out : List Record) (res : Nat × List Record),
      trials openmp cfg data l out = some res →
      (∀ r ∈ out, Verified openmp cfg data r) → ∀ r ∈ res.2, Verified openmp cfg data r := by
  intro l
  induction l with
  | nil =>
    intro out res h hout
    rw [trials_nil] at h
    rw [← Option.some.inj h]
    exact hout
  | cons rep rest ih =>
    intro out res h hout
    cases hd : dispatch openmp cfg data (List.replicate cfg.range 0) with
    | fatal =>
      rw [trials_fatal openmp cfg data rep rest out hd] at h
      rw [← Option.some.inj h]
      exact hout
    | done o =>
      cases o with
      | none =>
        rw [trials_undefined openmp cfg data rep rest out hd] at h
        exact absurd h (by simp)
      | some hist =>
        rw [trials_done openmp cfg data rep rest out hist hd] at h
        apply ih _ res h
        intro r hr
        rcases List.mem_append.mp hr with h1 | h1
        · exact hout r h1
        · rw [List.mem_singleton] at h1
          rw [h1]
          exact ⟨by simp, hist, hd, rfl⟩

theorem trials_ok (openmp : Bool) (cfg : Config) (data : List Int) (hist : List Nat)
    (hd : dispatch openmp cfg data (List.replicate cfg.range 0) = Dispatch.done (some hist))
    (hs : verify_sum hist = cfg.N) :
    ∀ (l : List Nat) (out : List Record),
      trials openmp cfg data l out
        = some (0, out ++ l.map (fun rep =>
            { method := cfg.method, backend := cfg.backend, threads := cfg.threads,
              rep := rep, total_count := cfg.N, ok := true })) := by
  intro l
  induction l with
  | nil =>
    intro out
    rw [trials_nil, List.map_nil, List.append_nil]
  | cons rep rest ih =>
    intro out
    rw [trials_done openmp cfg data rep rest out hist hd, ih, hs, List.map_cons,
      List.append_assoc, List.singleton_append]
    simp

theorem dispatch_fatal (openmp : Bool) (cfg : Config) (data : List Int) (hist : List Nat)
    (h1 : cfg.method ≠ "private") (h2 : cfg.method ≠ "mutex") (h3 : cfg.method ≠ "atomic") :
    dispatch openmp cfg data hist = Dispatch.fatal := by
  unfold dispatch
  by_cases hb : cfg.backend = "openmp"
  · rw [if_pos hb]
    cases openmp
    · rfl
    · rw [if_pos rfl, if_neg h1, if_neg h3, if_neg h2]
  · rw [if_neg hb, if_neg h1, if_neg h3, if_neg h2]

theorem dispatch_ok (openmp : Bool) (cfg : Config) (data : List Int)
    (hm : cfg.method = "private" ∨ cfg.method = "mutex" ∨ cfg.method = "atomic")
    (hb : cfg.backend ≠ "openmp" ∨ (openmp = true ∧ cfg.method ≠ "private"))
    (hT : 1 ≤ cfg.threads) (hdata : InRange data cfg.range) (hr : cfg.range ≤ WORD)
    (hfit : data.length + cfg.threads ≤ WORD) :
    dispatch openmp cfg data (List.replicate cfg.range 0)
      = Dispatch.done (some (histogram_of data cfg.range)) := by
  have hp := private_zero data cfg.range cfg.threads hdata hr hT hfit
  have hmu := mutex_zero data cfg.range cfg.threads hdata hr hT hfit
  have ha := atomic_zero data cfg.range cfg.threads hdata hr hT hfit
  have hao := atomic_openmp_zero data cfg.range cfg.threads hdata hr hT hfit
  have e1 : ¬ ("mutex" = "private") := by decide
  have e2 : ¬ ("mutex" = "atomic") := by decide
  have e3 : ¬ ("atomic" = "private") := by decide
  unfold dispatch
  by_cases hbk : cfg.backend = "openmp"
  · rcases hb with hb | ⟨ho, hnp⟩
    · exact absurd hbk hb
    · rw [if_pos hbk, ho, if_pos rfl, if_neg hnp]
      rcases hm with h | h | h
      · exact absurd h hnp
      · rw [h, if_neg e2, if_pos rfl, hmu]
      · rw [h, if_pos rfl, hao]
  · rw [if_neg hbk]
    rcases hm with h | h | h
    · rw [h, if_pos rfl, hp]
    · rw [h, if_neg e1, if_neg e2, if_pos rfl, hmu]
    · rw [h, if_neg e3, if_pos rfl, ha]

theorem main_std (openmp : Bool) (cfg : Config) (data : List Int)
    (hb : cfg.backend ≠ "openmp" ∨ openmp = true) :
    main openmp cfg data = trials openmp cfg data (List.range cfg.reps.toNat) [] := by
  unfold main
  rw [if_neg]
  rintro ⟨h1, h2⟩
  rcases hb with h | h
  · exact h h1
  · rw [h] at h2
    exact absurd h2 (by decide)

theorem main_without_openmp (cfg : Config) (data : List Int) (hb : cfg.backend = "openmp") :
    main false cfg data = some (1, []) := by
  unfold main
  rw [if_pos ⟨hb, rfl⟩]

/-- C7 fails on the code: a binary built with OpenMP, run with the valid
method `private` on the backend `openmp`, 4 threads, one repetition and the
dataset of seven zeros with `range = 1`, emits the record with `total_count = 2`
and the status BAD, where C7 has `total_count = 7` and OK. -/
theorem runner_openmp_private_reports_bad :
    InRange [0, 0, 0, 0, 0, 0, 0] 1 ∧
    main true { N := 7, range := 1, seed := 0, threads := 4, backend := "openmp",
                method := "private", reps := 1, quiet := false } [0, 0, 0, 0, 0, 0, 0]
      = some (0, [{ method := "private", backend := "openmp", threads := 4, rep := 0,
                    total_count := 2, ok := false }]) := by
  decide

/-- Where the runner does emit `total_count = N` and OK for every repetition:
a valid method on a backend other than `openmp`, or the methods `mutex` and
`atomic` on the backend `openmp` of a binary built with OpenMP; and in every
run each emitted record carries the sum of the bins of the histogram computed
from a fresh all-zero one, with status OK exactly when that sum is `N`. -/
theorem runner_records (openmp : Bool) (cfg : Config) (data : List Int)
    (hm : cfg.method = "private" ∨ cfg.method = "mutex" ∨ cfg.method = "atomic")
    (hb : cfg.backend ≠ "openmp" ∨ (openmp = true ∧ cfg.method ≠ "private"))
    (hT : 1 ≤ cfg.threads) (hN : data.length = cfg.N) (hdata : InRange data cfg.range)
    (hr : cfg.range ≤ WORD) (hfit : data.length + cfg.threads ≤ WORD) :
    main openmp cfg data
      = some (0, (List.range cfg.reps.toNat).map (fun rep =>
          { method := cfg.method, backend := cfg.backend, threads := cfg.threads,
            rep := rep, total_count := cfg.N, ok := true })) ∧
    (∀ res, main openmp cfg data = some res → ∀ r ∈ res.2, Verified openmp cfg data r) := by
  have hb2 : cfg.backend ≠ "openmp" ∨ openmp = true := by
    rcases hb with h | h
    · exact Or.inl h
    · exact Or.inr h.1
  have hd := dispatch_ok openmp cfg data hm hb hT hdata hr hfit
  have hs : verify_sum (histogram_of data cfg.range) = cfg.N := by
    rw [verify_sum_histogram_of data cfg.range cfg.threads hdata hT hfit, hN]
  constructor
  · rw [main_std openmp cfg data hb2, trials_ok openmp cfg data _ hd hs, List.nil_append]
  · intro res h r hr
    rw [main_std openmp cfg data hb2] at h
    exact trials_verified openmp cfg data _ [] res h (fun r hr => absurd hr (by simp)) r hr

/-- C8, as stated, fails: with `reps = 0` and the unknown method `foo` the
runner never looks at the method and exits with status 0. -/
theorem unknown_method_unnoticed_without_trials :
    main true { N := 1, range := 1, seed := 0, threads := 1, backend := "std",
                method := "foo", reps := 0, quiet := false } [0] = some (0, []) ∧
    main false { N := 1, range := 1, seed := 0, threads := 1, backend := "std",
                 method := "foo", reps := 0, quiet := false } [0] = some (0, []) := by
  decide

/-- C8, amended: for a configuration whose method is none of `private`,
`mutex`, `atomic` the runner emits no record, whatever `reps`, `threads` and the
backend, and with `reps ≥ 1` it terminates with exit status 1. -/
theorem unknown_method_fatal (openmp : Bool) (cfg : Config) (data : List Int)
    (h1 : cfg.method ≠ "private") (h2 : cfg.method ≠ "mutex") (h3 : cfg.method ≠ "atomic") :
    (∃ status, main openmp cfg data = some (status, [])) ∧
    (1 ≤ cfg.reps → main openmp cfg data = some (1, [])) := by
  have hd := dispatch_fatal openmp cfg data (List.replicate cfg.range 0) h1 h2 h3
  have hall : ∀ l, ∃ status, trials openmp cfg data l [] = some (status, []) := by
    intro l
    cases l with
    | nil => exact ⟨0, trials_nil openmp cfg data []⟩
    | cons rep rest => exact ⟨1, trials_fatal openmp cfg data rep rest [] hd⟩
  by_cases hbk : cfg.backend = "openmp" ∧ openmp = false
  · have e : main openmp cfg data = some (1, []) := by
      unfold main
      rw [if_pos hbk]
    exact ⟨⟨1, e⟩, fun _ => e⟩
  · have e : main openmp cfg data = trials openmp cfg data (List.range cfg.reps.toNat) [] := by
      unfold main
      rw [if_neg hbk]
    rw [e]
    refine ⟨hall _, ?_⟩
    intro hreps
    obtain ⟨m, hm⟩ : ∃ m, cfg.reps.toNat = m + 1 := ⟨cfg.reps.toNat - 1, by omega⟩
    rw [hm, List.range_succ_eq_map]
    exact trials_fatal openmp cfg data _ _ [] hd

/-- C8, amended, at the unknown method `foo` with 3 repetitions. -/
theorem unknown_method_fatal_witness :
    main true { N := 1, range := 1, seed := 0, threads := 1, backend := "std",
                method := "foo", reps := 3, quiet := false } [0] = some (1, []) :=
  (unknown_method_fatal true
    { N := 1, range := 1, seed := 0, threads := 1, backend := "std",
      method := "foo", reps := 3, quiet := false } [0]
    (by decide) (by decide) (by decide)).2 (by decide)

end Histogram
